import Mathlib

/-!
Verification of the zip-watcher pipeline (`watcher.py`).

The development shallowly embeds the pure core of the watcher:
file and directory names are lists of characters (`Str`), the
destination directory is the list of entry names it contains, the
task document is an optional text, and the fallible operating-system
calls (exclusive open, mkdir, extraction, unlink, append) are driven
by an explicit environment of outcomes.  `process_zip_file` returns
the new state together with a trace of events, so ordering claims
are statements about the trace.
-/

/-- Text is modelled as a list of characters (Python `str`). -/
abbrev Str := List Char

/-- Python's `str.lower`, restricted to the per-character case map. -/
def lowerStr (s : Str) : Str := s.map Char.toLower

/-- Split a text at every `'\n'`, Python `str.split("\n")`: the pieces
contain no newline, and a trailing newline yields a final empty piece. -/
def splitLines : Str → List Str
  | [] => [[]]
  | c :: rest =>
    if c = '\n' then [] :: splitLines rest
    else
      match splitLines rest with
      | [] => [[c]]
      | l :: ls => (c :: l) :: ls

/-- The decimal digit character of `d` (meaningful for `d < 10`). -/
def digitChar (d : Nat) : Char := Char.ofNat (48 + d)

/-- Decimal rendering of a natural number, fuelled so that it is
structurally recursive; `natStr` supplies sufficient fuel. -/
def natStrAux : Nat → Nat → Str
  | 0, _ => []
  | fuel + 1, n =>
    if n < 10 then [digitChar n]
    else natStrAux fuel (n / 10) ++ [digitChar (n % 10)]

/-- Python `str(n)` for a natural number `n`. -/
def natStr (n : Nat) : Str := natStrAux (n + 1) n

/-- Decimal parsing, a left inverse of `natStr` used to prove it injective. -/
def strNat (s : Str) : Nat := s.foldl (fun a c => a * 10 + (c.toNat - 48)) 0

/-- The candidate directory name `f"{folder_name}_{counter}"`. -/
def suffixName (folder_name : Str) (counter : Nat) : Str :=
  folder_name ++ '_' :: natStr counter

/-- The `while` loop of `resolve_extract_path`: starting at `counter`,
increment while the candidate name exists.  The loop is fuelled; the
fuel `entries.length + 1` used below always suffices because the
candidate names are pairwise distinct, so they cannot all occur among
`entries`. -/
def findCounter (entries : List Str) (folder_name : Str) : Nat → Nat → Nat
  | counter, 0 => counter
  | counter, fuel + 1 =>
    if suffixName folder_name counter ∈ entries then
      findCounter entries folder_name (counter + 1) fuel
    else counter

/-- `resolve_extract_path` from `watcher.py`, with the destination
directory represented by the list of names `entries` existing in it:
return `folder_name` if free, else the first free `folder_name_k`, `k ≥ 2`. -/
def resolve_extract_path (entries : List Str) (folder_name : Str) : Str :=
  if folder_name ∈ entries then
    suffixName folder_name (findCounter entries folder_name 2 (entries.length + 1))
  else folder_name

/-- `pat` occurs as a contiguous substring of `l` (used to model an
unanchored regular-expression search within one line). -/
def hasSub : Str → Str → Bool
  | l, pat =>
    pat.isPrefixOf l ||
      match l with
      | [] => false
      | _ :: rest => hasSub rest pat

/-- Split a name at its last `'.'`, returning the parts before and after
it; `none` when the name has no dot.  Models `str.rfind('.')`. -/
def lastSplitDot : Str → Option (Str × Str)
  | [] => none
  | c :: rest =>
    match lastSplitDot rest with
    | some (b, a) => some (c :: b, a)
    | none => if c = '.' then some ([], rest) else none

/-- `pathlib.PurePath.suffix` of a file name: the final `.ext` when the
last dot is neither the first nor the last character, else empty. -/
def pySuffix (name : Str) : Str :=
  match lastSplitDot name with
  | some (b, a) => if b ≠ [] ∧ a ≠ [] then '.' :: a else []
  | none => []

/-- `pathlib.PurePath.stem` of a file name: the name with `pySuffix` removed. -/
def pyStem (name : Str) : Str :=
  match lastSplitDot name with
  | some (b, a) => if b ≠ [] ∧ a ≠ [] then b else name
  | none => name

/-! ### The task document (`add_todo_entry`) -/

/-- The heading line `## [<name>](<name>/)` written for a new entry. -/
def headingLine (name : Str) : Str :=
  "## [".data ++ name ++ "](".data ++ name ++ "/)".data

/-- The fixed checklist line written under a new heading. -/
def checklistLine : Str := "- [ ] Review and determine next steps".data

/-- The exact text `f"\n## [{name}]({name}/)\n- [ ] Review and determine next steps\n"`
appended by `add_todo_entry`. -/
def todoEntryText (name : Str) : Str :=
  '\n' :: headingLine name ++ '\n' :: checklistLine ++ ['\n']

/-- One line matches the pattern `^## \[.*\]\(<name>/?\)` (the name taken
literally, as `re.escape` guarantees): the line starts with `## [` and,
after those four characters, contains `](<name>)` or `](<name>/)`. -/
def headingMatchLine (name : Str) (line : Str) : Bool :=
  "## [".data.isPrefixOf line &&
    (hasSub (line.drop 4) ("](".data ++ name ++ ")".data) ||
     hasSub (line.drop 4) ("](".data ++ name ++ "/)".data))

/-- `re.search(rf"(?m)^## \[.*\]\({re.escape(folder_name)}/?\)", content)`
returns a match: with multiline mode, some line matches the anchored pattern. -/
def todoPattern (name : Str) (content : Str) : Bool :=
  (splitLines content).any (headingMatchLine name)

/-- Events recorded by the pipeline: sleeps, log lines, and the four
file-system effects (directory creation, extraction, source deletion,
task-document append). -/
inductive Event
  | sleep (seconds : ℚ)
  | logTimeout (seconds : ℤ)
  | logExtracted (target : Str)
  | logDeleted
  | logTodoAdded (name : Str)
  | logError (msg : Str)
  | mkdirE (target : Str)
  | extractAll (target : Str) (entries : List (Str × Str))
  | unlinkE
  | todoAppend (text : Str)
deriving DecidableEq

/-- `add_todo_entry` from `watcher.py` on the document state:
`todo` is the document content (`none` when the file does not exist),
`writeErr` the outcome of the append write (`some e`: it raises `e`).
Returns the new document, the events, and the exception raised, if any. -/
def add_todo_entry (todo : Option Str) (folder_name : Str) (writeErr : Option Str) :
    Option Str × List Event × Option Str :=
  match todo with
  | none => (none, [], none)
  | some content =>
    if todoPattern folder_name content then (some content, [], none)
    else
      match writeErr with
      | some e => (some content, [], some e)
      | none =>
        (some (content ++ todoEntryText folder_name),
         [Event.todoAppend (todoEntryText folder_name), Event.logTodoAdded folder_name],
         none)

/-- An event that appends text to the task document. -/
def isAppendEv : Event → Bool
  | Event.todoAppend _ => true
  | _ => false

/-- The shape the specification ascribes to a matching heading line:
`## [<any text>](<name>)` or `## [<any text>](<name>/)` at the start of
the line, the name compared literally, anything allowed afterwards. -/
def headingMatchSpec (name line : Str) : Prop :=
  ∃ mid slash rest, (slash = [] ∨ slash = ['/']) ∧
    line = "## [".data ++ mid ++ "](".data ++ name ++ slash ++ [')'] ++ rest

/-! ### The processor (`wait_for_file_ready`, `process_zip_file`) -/

/-- The fragment of the file-system state that `process_zip_file` reads
and writes: the watched source file, the destination directory, the
files extracted so far, and the task document. -/
structure FsState where
  /-- the source zip file exists at `file_path` -/
  srcPresent : Bool
  /-- the final path component of `file_path` -/
  srcName : Str
  /-- the archive's entries, as (relative path, data) pairs -/
  archive : List (Str × Str)
  /-- the names existing in the destination directory -/
  destEntries : List Str
  /-- files written by extraction: (target folder, entry) pairs -/
  extracted : List (Str × (Str × Str))
  /-- the task document content, `none` when the file does not exist -/
  todo : Option Str
deriving DecidableEq

/-- Outcomes of the fallible operating-system calls during one
`process_zip_file` run: whether each exclusive-open attempt succeeds,
and the exception (if any) raised by mkdir, extraction, unlink, and
the task-document write. -/
structure Env where
  lockFree : Nat → Bool
  mkdirErr : Option Str
  extractErr : Option Str
  unlinkErr : Option Str
  todoWriteErr : Option Str

/-- The retry loop of `wait_for_file_ready`: attempt `i`, `i+1`, … for
`r` attempts; an attempt succeeds when the file exists and no other
process holds it open (`CreateFileW` with `FILE_SHARE_NONE` and
`OPEN_EXISTING` fails on an absent file).  Each failed attempt sleeps
`delay` seconds. -/
def waitLoop (present : Bool) (lockFree : Nat → Bool) (delay : ℚ) :
    Nat → Nat → Bool × List Event
  | _, 0 => (false, [])
  | i, r + 1 =>
    if present && lockFree i then (true, [])
    else
      let rest := waitLoop present lockFree delay (i + 1) r
      (rest.1, Event.sleep delay :: rest.2)

/-- `wait_for_file_ready` from `watcher.py`. -/
def wait_for_file_ready (st : FsState) (env : Env) (retries : Nat) (delay : ℚ) :
    Bool × List Event :=
  waitLoop st.srcPresent env.lockFree delay 0 retries

/-- Python `int()` on a rational: truncation toward zero. -/
def pyInt (q : ℚ) : ℤ := if q < 0 then -⌊-q⌋ else ⌊q⌋

/-- `process_zip_file` from `watcher.py`: probe readiness (on timeout
log and return), then inside `try`: resolve the extraction target,
create it, extract all entries, delete the source, and add the task
entry; any exception is caught and logged as an ERROR line. -/
def process_zip_file (st : FsState) (env : Env) (lock_retries : Nat) (lock_delay : ℚ) :
    FsState × List Event :=
  let w := wait_for_file_ready st env lock_retries lock_delay
  if !w.1 then
    (st, w.2 ++ [Event.logTimeout (pyInt (lock_retries * lock_delay))])
  else
    let folder_name := pyStem st.srcName
    let target := resolve_extract_path st.destEntries folder_name
    match env.mkdirErr with
    | some e => (st, w.2 ++ [Event.logError e])
    | none =>
      let st1 := { st with destEntries := target :: st.destEntries }
      let tr1 := w.2 ++ [Event.mkdirE target]
      match env.extractErr with
      | some e => (st1, tr1 ++ [Event.logError e])
      | none =>
        let st2 := { st1 with
          extracted := st1.extracted ++ st.archive.map (fun z => (target, z)) }
        let tr2 := tr1 ++ [Event.extractAll target st.archive, Event.logExtracted target]
        match env.unlinkErr with
        | some e => (st2, tr2 ++ [Event.logError e])
        | none =>
          let st3 := { st2 with srcPresent := false }
          let tr3 := tr2 ++ [Event.unlinkE, Event.logDeleted]
          match add_todo_entry st3.todo target env.todoWriteErr with
          | (newTodo, tev, none) => ({ st3 with todo := newTodo }, tr3 ++ tev)
          | (_, _, some e) => (st3, tr3 ++ [Event.logError e])

/-- The file-system effects among the events (everything except sleeps
and log lines). -/
def isFx : Event → Bool
  | Event.mkdirE _ => true
  | Event.extractAll _ _ => true
  | Event.unlinkE => true
  | Event.todoAppend _ => true
  | _ => false

/-- Log events that terminate a `process_zip_file` run: the timeout
log, the caught-error log, and the success logs. -/
def terminalEvent : Event → Bool
  | Event.logTimeout _ => true
  | Event.logError _ => true
  | Event.logDeleted => true
  | Event.logTodoAdded _ => true
  | _ => false

/-! ### Candidate selection (`ZipEventHandler`, startup scan, poll sweep) -/

/-- An entry of the watch directory: its name and whether it is a directory. -/
structure DirEntry where
  name : Str
  isDir : Bool
deriving DecidableEq

/-- The live-event filter: `on_created`/`on_moved` ignore directory
events, and `_handle` returns unless `file_path.suffix.lower() == ".zip"`. -/
def eventEmits (e : DirEntry) : Bool :=
  !e.isDir && decide (lowerStr (pySuffix e.name) = ".zip".data)

/-- Whether a name matches the glob pattern `*.zip` under Windows
case-folding: its lowercase form ends with `.zip`. -/
def globZip (name : Str) : Bool :=
  ".zip".data.isSuffixOf (lowerStr name)

/-- The startup scan and the poll sweep: `watch_folder.glob("*.zip")`
lists every entry, directory or not, whose name matches the pattern.
(The scan sorts the result; no claim concerns the order.) -/
def scanCandidates (entries : List DirEntry) : List Str :=
  (entries.filter fun e => globZip e.name).map DirEntry.name

/-- The extraction target chosen by `process_zip_file`:
`resolve_extract_path(destination, file_path.stem)`. -/
def extractTarget (st : FsState) : Str :=
  resolve_extract_path st.destEntries (pyStem st.srcName)

/-- The timeout log event. -/
def isTimeoutEv : Event → Bool
  | Event.logTimeout _ => true
  | _ => false

/-- A concrete ready state used to witness the processor theorems. -/
def stW : FsState :=
  { srcPresent := true, srcName := "proj.zip".data,
    archive := [("a.txt".data, "x".data)], destEntries := [],
    extracted := [], todo := some "# Todo\n".data }

/-- A concrete environment in which every operating-system call succeeds. -/
def envW : Env :=
  { lockFree := fun _ => true, mkdirErr := none, extractErr := none,
    unlinkErr := none, todoWriteErr := none }

/-- A concrete state whose source file is present but held by another
process throughout (the probe never succeeds). -/
def stL : FsState :=
  { srcPresent := true, srcName := "a.zip".data, archive := [],
    destEntries := [], extracted := [], todo := none }

/-- A concrete environment whose exclusive-open attempts all fail. -/
def envL : Env :=
  { lockFree := fun _ => false, mkdirErr := none, extractErr := none,
    unlinkErr := none, todoWriteErr := none }

/-- A concrete state whose source file is absent (already deleted). -/
def stG : FsState :=
  { srcPresent := false, srcName := "a.zip".data, archive := [],
    destEntries := [], extracted := [], todo := none }

/-! ### Correctness of `resolve_extract_path` -/

theorem natStrAux_fuel : ∀ (n f g : Nat), n < f → n < g → natStrAux f n = natStrAux g n := by
  intro n
  induction n using Nat.strong_induction_on with
  | _ n ih =>
    intro f g hf hg
    cases f with
    | zero => omega
    | succ f =>
      cases g with
      | zero => omega
      | succ g =>
        by_cases h : n < 10
        · simp [natStrAux, h]
        · have h1 : n / 10 < n := Nat.div_lt_self (by omega) (by omega)
          simp only [natStrAux, h, if_false]
          rw [ih (n / 10) h1 f g (by omega) (by omega)]

theorem natStr_eq (n : Nat) : natStr n =
    if n < 10 then [digitChar n] else natStr (n / 10) ++ [digitChar (n % 10)] := by
  by_cases h : n < 10
  · simp [natStr, natStrAux, h]
  · have h1 : n / 10 < n := Nat.div_lt_self (by omega) (by omega)
    conv_lhs => rw [natStr, natStrAux]
    rw [if_neg h, if_neg h, natStrAux_fuel (n / 10) n (n / 10 + 1) h1 (by omega)]
    rfl

theorem digitChar_toNat : ∀ d, d < 10 → (digitChar d).toNat - 48 = d := by decide

theorem strNat_snoc (s : Str) (c : Char) :
    strNat (s ++ [c]) = strNat s * 10 + (c.toNat - 48) := by
  simp [strNat, List.foldl_append]

theorem strNat_natStr : ∀ n, strNat (natStr n) = n := by
  intro n
  induction n using Nat.strong_induction_on with
  | _ n ih =>
    rw [natStr_eq]
    by_cases h : n < 10
    · simp only [h, if_true]
      have : strNat [digitChar n] = (digitChar n).toNat - 48 := by simp [strNat]
      rw [this, digitChar_toNat n h]
    · have h1 : n / 10 < n := Nat.div_lt_self (by omega) (by omega)
      simp only [h, if_false]
      rw [strNat_snoc, ih (n / 10) h1, digitChar_toNat (n % 10) (Nat.mod_lt n (by omega))]
      omega

theorem natStr_inj : Function.Injective natStr :=
  Function.LeftInverse.injective strNat_natStr

theorem suffixName_inj (n : Str) : Function.Injective (suffixName n) := by
  intro a b h
  have h2 := List.append_cancel_left h
  simp only [List.cons.injEq, true_and] at h2
  exact natStr_inj h2

theorem exists_free_suffix (entries : List Str) (n : Str) (c : Nat) :
    ∃ i, i ≤ entries.length ∧ suffixName n (c + i) ∉ entries := by
  by_contra hc
  push_neg at hc
  have hnd : ((List.range (entries.length + 1)).map fun i => suffixName n (c + i)).Nodup := by
    refine List.Nodup.map ?_ (List.nodup_range _)
    intro a b hab
    have := suffixName_inj n hab
    omega
  have hsub : ((List.range (entries.length + 1)).map fun i => suffixName n (c + i)) ⊆ entries := by
    intro x hx
    simp only [List.mem_map, List.mem_range] at hx
    obtain ⟨i, hi, rfl⟩ := hx
    exact hc i (by omega)
  have hlen := (List.subperm_of_subset hnd hsub).length_le
  simp only [List.length_map, List.length_range] at hlen
  omega

theorem findCounter_spec (entries : List Str) (n : Str) :
    ∀ (fuel c : Nat), (∃ i, i < fuel ∧ suffixName n (c + i) ∉ entries) →
      suffixName n (findCounter entries n c fuel) ∉ entries ∧
      c ≤ findCounter entries n c fuel ∧
      ∀ j, c ≤ j → j < findCounter entries n c fuel → suffixName n j ∈ entries := by
  intro fuel
  induction fuel with
  | zero => rintro c ⟨i, hi, -⟩; omega
  | succ f ih =>
    rintro c ⟨i, hi, hfree⟩
    by_cases hc : suffixName n c ∈ entries
    · have hi0 : i ≠ 0 := by rintro rfl; exact hfree hc
      have hfree' : suffixName n (c + 1 + (i - 1)) ∉ entries := by
        have hci : c + 1 + (i - 1) = c + i := by omega
        rw [hci]; exact hfree
      have hrec := ih (c + 1) ⟨i - 1, by omega, hfree'⟩
      have hstep : findCounter entries n c (f + 1) = findCounter entries n (c + 1) f := by
        rw [findCounter, if_pos hc]
      rw [hstep]
      refine ⟨hrec.1, by omega, fun j hj1 hj2 => ?_⟩
      rcases Nat.eq_or_lt_of_le hj1 with rfl | hlt
      · exact hc
      · exact hrec.2.2 j hlt hj2
    · have hstep : findCounter entries n c (f + 1) = c := by
        rw [findCounter, if_neg hc]
      rw [hstep]
      exact ⟨hc, le_refl _, fun j h1 h2 => absurd h1 (by omega)⟩

theorem append_cons_ne_self (n a : Str) (c : Char) : n ++ c :: a ≠ n := by
  intro h
  have := congrArg List.length h
  simp only [List.length_append, List.length_cons] at this
  omega

theorem resolve_extract_path_free (entries : List Str) (m : Str) (hm : m ∈ entries) :
    ∃ k, 2 ≤ k ∧ resolve_extract_path entries m = suffixName m k ∧
      suffixName m k ∉ entries ∧ ∀ j, 2 ≤ j → j < k → suffixName m j ∈ entries := by
  obtain ⟨i, hi, hfree⟩ := exists_free_suffix entries m 2
  have hspec := findCounter_spec entries m (entries.length + 1) 2 ⟨i, by omega, hfree⟩
  refine ⟨findCounter entries m 2 (entries.length + 1), hspec.2.1, ?_, hspec.1, hspec.2.2⟩
  simp only [resolve_extract_path]
  rw [if_pos hm]

theorem resolve_extract_path_concrete (n : Str) :
    resolve_extract_path [n, n ++ "_2".data, n ++ "_3".data] n = n ++ "_4".data := by
  have n2 : suffixName n 2 = n ++ ['_', '2'] := rfl
  have n3 : suffixName n 3 = n ++ ['_', '3'] := rfl
  have n4 : suffixName n 4 = n ++ ['_', '4'] := rfl
  have d2 : "_2".data = ['_', '2'] := rfl
  have d3 : "_3".data = ['_', '3'] := rfl
  have d4 : "_4".data = ['_', '4'] := rfl
  rw [d2, d3, d4]
  have hm : n ∈ [n, n ++ ['_', '2'], n ++ ['_', '3']] := List.mem_cons_self n _
  have m2 : suffixName n 2 ∈ [n, n ++ ['_', '2'], n ++ ['_', '3']] := by
    rw [n2]; exact List.mem_cons_of_mem _ (List.mem_cons_self _ _)
  have m3 : suffixName n 3 ∈ [n, n ++ ['_', '2'], n ++ ['_', '3']] := by
    rw [n3]; exact List.mem_cons_of_mem _ (List.mem_cons_of_mem _ (List.mem_cons_self _ _))
  have m4 : suffixName n 4 ∉ [n, n ++ ['_', '2'], n ++ ['_', '3']] := by
    rw [n4]
    intro h
    rcases List.mem_cons.mp h with h1 | h
    · exact append_cons_ne_self n _ '_' h1
    rcases List.mem_cons.mp h with h2 | h
    · have := List.append_cancel_left h2
      exact absurd this (by decide)
    rcases List.mem_cons.mp h with h3 | h
    · have := List.append_cancel_left h3
      exact absurd this (by decide)
    · simp at h
  simp only [resolve_extract_path]
  rw [if_pos hm]
  have hlen : ([n, n ++ ['_', '2'], n ++ ['_', '3']] : List Str).length + 1 = 4 := rfl
  rw [hlen]
  have s1 : findCounter [n, n ++ ['_', '2'], n ++ ['_', '3']] n 2 4
      = findCounter [n, n ++ ['_', '2'], n ++ ['_', '3']] n 3 3 := by
    rw [findCounter, if_pos m2]
  have s2 : findCounter [n, n ++ ['_', '2'], n ++ ['_', '3']] n 3 3
      = findCounter [n, n ++ ['_', '2'], n ++ ['_', '3']] n 4 2 := by
    rw [findCounter, if_pos m3]
  have s3 : findCounter [n, n ++ ['_', '2'], n ++ ['_', '3']] n 4 2 = 4 := by
    rw [findCounter, if_neg m4]
  rw [s1, s2, s3, n4]

/-- C1: `resolve_extract_path` returns `destination/n` when no entry named
`n` exists; otherwise it returns `destination/n_k` for the least `k ≥ 2`
such that no entry named `n_k` exists; the returned path never names an
existing entry; and with entries `{n, n_2, n_3}` present it returns `n_4`. -/
theorem resolve_extract_path_correct (entries : List Str) (n : Str) :
    (n ∉ entries → resolve_extract_path entries n = n) ∧
    (n ∈ entries → ∃ k, 2 ≤ k ∧ resolve_extract_path entries n = suffixName n k ∧
      suffixName n k ∉ entries ∧ ∀ j, 2 ≤ j → j < k → suffixName n j ∈ entries) ∧
    resolve_extract_path entries n ∉ entries ∧
    resolve_extract_path [n, n ++ "_2".data, n ++ "_3".data] n = n ++ "_4".data := by
  refine ⟨fun h => by simp only [resolve_extract_path]; rw [if_neg h],
    resolve_extract_path_free entries n, ?_, resolve_extract_path_concrete n⟩
  by_cases hm : n ∈ entries
  · obtain ⟨k, -, hk, hfree, -⟩ := resolve_extract_path_free entries n hm
    rw [hk]; exact hfree
  · simp only [resolve_extract_path]
    rw [if_neg hm]; exact hm

theorem resolve_extract_path_correct_witness :
    resolve_extract_path [] "a".data = "a".data ∧
    (∃ k, 2 ≤ k ∧ resolve_extract_path ["a".data] "a".data = suffixName "a".data k ∧
      suffixName "a".data k ∉ ["a".data] ∧
      ∀ j, 2 ≤ j → j < k → suffixName "a".data j ∈ ["a".data]) :=
  ⟨(resolve_extract_path_correct [] "a".data).1 (by decide),
   (resolve_extract_path_correct ["a".data] "a".data).2.1 (by decide)⟩

/-! ### Lines and substring search -/

theorem splitLines_ne_nil (s : Str) : splitLines s ≠ [] := by
  induction s with
  | nil => simp [splitLines]
  | cons c rest ih =>
    by_cases h : c = '\n'
    · simp [splitLines, h]
    · simp only [splitLines, h, if_false]
      cases heq : splitLines rest with
      | nil => simp
      | cons l ls => simp

theorem splitLines_no_nl (s : Str) (h : ('\n' : Char) ∉ s) : splitLines s = [s] := by
  induction s with
  | nil => rfl
  | cons c rest ih =>
    have hc : ¬(c = '\n') := by rintro rfl; exact h (List.mem_cons_self _ _)
    have hrest : ('\n' : Char) ∉ rest := fun hm => h (List.mem_cons_of_mem c hm)
    simp only [splitLines, hc, if_false]
    rw [ih hrest]

theorem splitLines_cons_nl (s : Str) : splitLines ('\n' :: s) = [] :: splitLines s := by
  simp [splitLines]

theorem splitLines_cons_ne (c : Char) (h : ¬c = '\n') (s l : Str) (ls : List Str)
    (hs : splitLines s = l :: ls) : splitLines (c :: s) = (c :: l) :: ls := by
  simp only [splitLines, h, if_false, hs]

theorem splitLines_surj (s : Str) : ∃ l ls, splitLines s = l :: ls := by
  cases hs : splitLines s with
  | nil => exact absurd hs (splitLines_ne_nil s)
  | cons l ls => exact ⟨l, ls, rfl⟩

theorem splitLines_append (a b : Str) :
    splitLines (a ++ '\n' :: b) = splitLines a ++ splitLines b := by
  induction a with
  | nil => simp [splitLines]
  | cons c a ih =>
    rw [List.cons_append]
    by_cases h : c = '\n'
    · subst h
      rw [splitLines_cons_nl, splitLines_cons_nl, ih]
      rfl
    · obtain ⟨l, ls, heq⟩ := splitLines_surj a
      rw [splitLines_cons_ne c h (a ++ '\n' :: b) l (ls ++ splitLines b) (by rw [ih, heq]; rfl),
        splitLines_cons_ne c h a l ls heq]
      rfl

theorem hasSub_iff (l pat : Str) : hasSub l pat = true ↔ ∃ s t, l = s ++ pat ++ t := by
  induction l with
  | nil =>
    simp only [hasSub, Bool.or_false]
    rw [ List.isPrefixOf_iff_prefix]
    constructor
    · intro hp
      have hp0 : pat = [] := List.prefix_nil.mp hp
      exact ⟨[], [], by simp [hp0]⟩
    · rintro ⟨s, t, he⟩
      have hp0 : pat = [] := by
        cases s <;> cases pat <;> simp_all
      simp [hp0]
  | cons c rest ih =>
    simp only [hasSub, Bool.or_eq_true, List.isPrefixOf_iff_prefix, ih]
    constructor
    · rintro (hp | ⟨s, t, rfl⟩)
      · obtain ⟨t, ht⟩ := hp
        exact ⟨[], t, by simpa using ht.symm⟩
      · exact ⟨c :: s, t, by simp⟩
    · rintro ⟨s, t, he⟩
      cases s with
      | nil =>
        exact Or.inl ⟨t, by simpa using he.symm⟩
      | cons c' s =>
        simp only [List.cons_append, List.cons.injEq] at he
        exact Or.inr ⟨s, t, he.2⟩

theorem dropHeading4 (l : Str) : ("## [".data ++ l).drop 4 = l := by
  have h4 : ("## [".data : Str).length = 4 := rfl
  rw [← h4, List.drop_left]

theorem headingLine_assoc (name : Str) :
    headingLine name = "## [".data ++ (name ++ ("](".data ++ (name ++ "/)".data))) := by
  simp [headingLine, List.append_assoc]

theorem headingMatchLine_self (name : Str) :
    headingMatchLine name (headingLine name) = true := by
  rw [headingMatchLine, headingLine_assoc, dropHeading4]
  simp only [Bool.and_eq_true, Bool.or_eq_true]
  refine ⟨ List.isPrefixOf_iff_prefix.mpr ⟨_, rfl⟩, Or.inr ?_⟩
  refine (hasSub_iff _ _).mpr ⟨name, [], ?_⟩
  simp [List.append_assoc]

/-! ### Behaviour of `add_todo_entry` -/

theorem nl_not_mem_headingLine (name : Str) (h : ('\n' : Char) ∉ name) :
    ('\n' : Char) ∉ headingLine name := by
  intro hm
  rw [headingLine_assoc] at hm
  rcases List.mem_append.mp hm with h1 | hm
  · exact absurd h1 (by decide)
  rcases List.mem_append.mp hm with h2 | hm
  · exact h h2
  rcases List.mem_append.mp hm with h3 | hm
  · exact absurd h3 (by decide)
  rcases List.mem_append.mp hm with h4 | h5
  · exact h h4
  · exact absurd h5 (by decide)

theorem todoEntryText_eq (name : Str) :
    todoEntryText name = '\n' :: (headingLine name ++ '\n' :: (checklistLine ++ ['\n'])) := by
  simp [todoEntryText, List.cons_append, List.append_assoc]

theorem splitLines_entry (name : Str) (h : ('\n' : Char) ∉ name) :
    splitLines (todoEntryText name) = [[], headingLine name, checklistLine, []] := by
  rw [todoEntryText_eq]
  rw [splitLines_cons_nl, splitLines_append, splitLines_no_nl _ (nl_not_mem_headingLine name h)]
  have htail : splitLines (checklistLine ++ ['\n']) = [checklistLine, []] := by
    rw [show (['\n'] : Str) = '\n' :: [] from rfl, splitLines_append,
      splitLines_no_nl checklistLine (by decide)]
    rfl
  rw [htail]
  rfl

theorem todoPattern_append (content name : Str) (h : ('\n' : Char) ∉ name) :
    todoPattern name (content ++ todoEntryText name) = true := by
  unfold todoPattern
  rw [todoEntryText_eq, splitLines_append, List.any_append, splitLines_append,
    splitLines_no_nl _ (nl_not_mem_headingLine name h)]
  simp [headingMatchLine_self name]

/-- C6: the task-document append step is idempotent: with the same
resolved name, a second call leaves the document unchanged and appends
nothing, the two calls together append at most one entry, and when the
document does not exist nothing is written.  (`name` is a directory name
just created on the file system, hence newline-free.) -/
theorem add_todo_entry_idempotent (todo : Option Str) (name : Str)
    (h : ('\n' : Char) ∉ name) :
    (todo = none → add_todo_entry todo name none = (none, [], none)) ∧
    add_todo_entry (add_todo_entry todo name none).1 name none
      = ((add_todo_entry todo name none).1, [], none) ∧
    (add_todo_entry todo name none).2.1.countP isAppendEv ≤ 1 := by
  cases todo with
  | none =>
    refine ⟨fun _ => rfl, rfl, ?_⟩
    simp [add_todo_entry]
  | some content =>
    refine ⟨fun hc => absurd hc (by simp), ?_, ?_⟩
    · cases hp : todoPattern name content with
      | true => simp [add_todo_entry, hp]
      | false =>
        simp only [add_todo_entry, hp, Bool.false_eq_true, if_false]
        simp [todoPattern_append content name h]
    · cases hp : todoPattern name content with
      | true => simp [add_todo_entry, hp, isAppendEv]
      | false => simp [add_todo_entry, hp, isAppendEv]

theorem add_todo_entry_idempotent_witness :
    add_todo_entry (add_todo_entry (some "x".data) "p".data none).1 "p".data none
      = ((add_todo_entry (some "x".data) "p".data none).1, [], none) :=
  (add_todo_entry_idempotent (some "x".data) "p".data (by decide)).2.1

/-- C9: whenever `add_todo_entry` appends, the appended text is exactly
a blank line, the heading line `## [<name>](<name>/)`, and the fixed
checklist line, appended verbatim at the end of the prior content. -/
theorem add_todo_entry_shape (content name : Str) (h : ('\n' : Char) ∉ name)
    (hp : todoPattern name content = false) :
    add_todo_entry (some content) name none
      = (some (content ++ todoEntryText name),
         [Event.todoAppend (todoEntryText name), Event.logTodoAdded name], none) ∧
    todoEntryText name = '\n' :: (headingLine name ++ '\n' :: (checklistLine ++ ['\n'])) ∧
    splitLines (todoEntryText name) = [[], headingLine name, checklistLine, []] :=
  ⟨by simp [add_todo_entry, hp], todoEntryText_eq name, splitLines_entry name h⟩

theorem add_todo_entry_shape_witness :
    add_todo_entry (some "x".data) "p".data none
      = (some ("x".data ++ todoEntryText "p".data),
         [Event.todoAppend (todoEntryText "p".data), Event.logTodoAdded "p".data], none) :=
  (add_todo_entry_shape "x".data "p".data (by decide) (by decide)).1

theorem headingMatchLine_iff (name line : Str) :
    headingMatchLine name line = true ↔ headingMatchSpec name line := by
  unfold headingMatchLine headingMatchSpec
  simp only [Bool.and_eq_true, Bool.or_eq_true, List.isPrefixOf_iff_prefix, hasSub_iff]
  constructor
  · rintro ⟨⟨t, ht⟩, hsub | hsub⟩
    · obtain ⟨s, t', he⟩ := hsub
      have hd : line.drop 4 = t := by rw [← ht, dropHeading4]
      have ht2 := hd.symm.trans he
      refine ⟨s, [], t', Or.inl rfl, ?_⟩
      rw [← ht, ht2]
      simp [List.append_assoc]
    · obtain ⟨s, t', he⟩ := hsub
      have hd : line.drop 4 = t := by rw [← ht, dropHeading4]
      have ht2 := hd.symm.trans he
      refine ⟨s, ['/'], t', Or.inr rfl, ?_⟩
      rw [← ht, ht2]
      simp [List.append_assoc]
  · rintro ⟨mid, slash, rest, hsl, rfl⟩
    have hline : "## [".data ++ mid ++ "](".data ++ name ++ slash ++ [')'] ++ rest
        = "## [".data ++ (mid ++ "](".data ++ name ++ slash ++ [')'] ++ rest) := by
      simp [List.append_assoc]
    constructor
    · exact ⟨_, hline.symm⟩
    · rcases hsl with rfl | rfl
      · refine Or.inl ⟨mid, rest, ?_⟩
        rw [hline, dropHeading4]
        simp [List.append_assoc]
      · refine Or.inr ⟨mid, rest, ?_⟩
        rw [hline, dropHeading4]
        simp [List.append_assoc]

/-- C10: with an existing task document, the append is suppressed exactly
when some line of the document starts with a heading `## [<any text>](<name>)`
or `## [<any text>](<name>/)`, the name compared literally. -/
theorem add_todo_entry_suppression (content name : Str) (_h : ('\n' : Char) ∉ name) :
    add_todo_entry (some content) name none = (some content, [], none) ↔
      ∃ line ∈ splitLines content, headingMatchSpec name line := by
  constructor
  · intro he
    cases hp : todoPattern name content with
    | true =>
      obtain ⟨line, hmem, hmatch⟩ := List.any_eq_true.mp hp
      exact ⟨line, hmem, (headingMatchLine_iff name line).mp hmatch⟩
    | false =>
      exfalso
      simp [add_todo_entry, hp] at he
  · rintro ⟨line, hmem, hspec⟩
    have hp : todoPattern name content = true :=
      List.any_eq_true.mpr ⟨line, hmem, (headingMatchLine_iff name line).mpr hspec⟩
    simp [add_todo_entry, hp]

theorem add_todo_entry_suppression_witness :
    add_todo_entry (some "## [shown](p/)\nrest".data) "p".data none
      = (some "## [shown](p/)\nrest".data, [], none) :=
  (add_todo_entry_suppression "## [shown](p/)\nrest".data "p".data (by decide)).mpr
    ⟨"## [shown](p/)".data, by decide, "shown".data, ['/'], [], Or.inr rfl, by decide⟩

/-! ### Behaviour of the processor -/

theorem waitLoop_fail (p : Bool) (lf : Nat → Bool) (d : ℚ) :
    ∀ (r i : Nat), (∀ j, i ≤ j → j < i + r → (p && lf j) = false) →
      waitLoop p lf d i r = (false, List.replicate r (Event.sleep d)) := by
  intro r
  induction r with
  | zero => intro i _; rfl
  | succ r ih =>
    intro i h
    have h0 : (p && lf i) = false := h i (le_refl _) (by omega)
    simp only [waitLoop, h0, Bool.false_eq_true, if_false]
    rw [ih (i + 1) fun j hj1 hj2 => h j (by omega) (by omega)]
    rfl

theorem waitLoop_true (p : Bool) (lf : Nat → Bool) (d : ℚ) :
    ∀ (r i j : Nat), i ≤ j → j < i + r → p = true → lf j = true →
      (waitLoop p lf d i r).1 = true := by
  intro r
  induction r with
  | zero => intro i j h1 h2 _ _; omega
  | succ r ih =>
    intro i j h1 h2 hp hl
    by_cases h0 : (p && lf i) = true
    · simp [waitLoop, h0]
    · have hne : j ≠ i := by
        rintro rfl
        exact h0 (by simp [hp, hl])
      simp only [waitLoop, h0, if_false]
      exact ih (i + 1) j (by omega) (by omega) hp hl

theorem waitLoop_sleeps (p : Bool) (lf : Nat → Bool) (d : ℚ) :
    ∀ (r i : Nat), ∀ e ∈ (waitLoop p lf d i r).2, e = Event.sleep d := by
  intro r
  induction r with
  | zero => intro i e he; simp [waitLoop] at he
  | succ r ih =>
    intro i e he
    by_cases h0 : (p && lf i) = true
    · simp [waitLoop, h0] at he
    · simp only [waitLoop, h0, if_false] at he
      rcases List.mem_cons.mp he with rfl | hmem
      · rfl
      · exact ih (i + 1) e hmem

theorem wait_trace_sleeps (st : FsState) (env : Env) (r : Nat) (d : ℚ) :
    ∀ e ∈ (wait_for_file_ready st env r d).2, e = Event.sleep d :=
  waitLoop_sleeps st.srcPresent env.lockFree d r 0

/-- On a state whose readiness probe fails throughout the budget,
`process_zip_file` only sleeps and logs one timeout. -/
theorem process_timeout_path (st : FsState) (env : Env) (r : Nat) (d : ℚ)
    (h : ∀ i, i < r → (st.srcPresent && env.lockFree i) = false) :
    process_zip_file st env r d
      = (st, List.replicate r (Event.sleep d) ++ [Event.logTimeout (pyInt (r * d))]) := by
  have hwait : wait_for_file_ready st env r d = (false, List.replicate r (Event.sleep d)) :=
    waitLoop_fail st.srcPresent env.lockFree d r 0 fun j hj1 hj2 => h j (by omega)
  simp [process_zip_file, hwait]

/-- `add_todo_entry` with a successful write never raises. -/
theorem add_todo_entry_no_raise (todo : Option Str) (name : Str) :
    (add_todo_entry todo name none).2.2 = none := by
  cases todo with
  | none => rfl
  | some content =>
    by_cases hp : todoPattern name content = true <;> simp [add_todo_entry, hp]

/-- The events of any `add_todo_entry` call: either nothing, or one
append followed by its log line. -/
theorem add_todo_entry_events (todo : Option Str) (name : Str) (we : Option Str) :
    (add_todo_entry todo name we).2.1 = [] ∨
    (add_todo_entry todo name we).2.1
      = [Event.todoAppend (todoEntryText name), Event.logTodoAdded name] := by
  cases todo with
  | none => exact Or.inl rfl
  | some content =>
    by_cases hp : todoPattern name content = true
    · simp [add_todo_entry, hp]
    · cases we <;> simp [add_todo_entry, hp]

theorem wait_trace_filter (st : FsState) (env : Env) (r : Nat) (d : ℚ)
    (p : Event → Bool) (hp : ∀ q, p (Event.sleep q) = false) :
    (wait_for_file_ready st env r d).2.filter p = [] :=
  List.filter_eq_nil_iff.mpr fun e he => by
    rw [wait_trace_sleeps st env r d e he, hp]
    exact fun hc => by cases hc

theorem wait_ready (st : FsState) (env : Env) (r : Nat) (d : ℚ)
    (hsrc : st.srcPresent = true) (hlock : ∃ i, i < r ∧ env.lockFree i = true) :
    (wait_for_file_ready st env r d).1 = true := by
  obtain ⟨i, hi, hl⟩ := hlock
  exact waitLoop_true st.srcPresent env.lockFree d r 0 i (by omega) (by omega) hsrc hl

/-- C2: on a ready, valid archive with no operating-system failures,
`process_zip_file` creates the resolved target, extracts all of the
archive's entries into it, deletes the source, and then runs the
task-document append — in exactly that order (the readiness trace
consists of sleeps only), and when the task document exists with no
matching heading the append step appends exactly one entry. -/
theorem process_zip_file_success (st : FsState) (env : Env) (r : Nat) (d : ℚ)
    (hsrc : st.srcPresent = true) (hlock : ∃ i, i < r ∧ env.lockFree i = true)
    (hmk : env.mkdirErr = none) (hex : env.extractErr = none)
    (hun : env.unlinkErr = none) (htd : env.todoWriteErr = none) :
    process_zip_file st env r d
      = ({ st with destEntries := extractTarget st :: st.destEntries,
                   extracted := st.extracted
                     ++ st.archive.map (fun z => (extractTarget st, z)),
                   srcPresent := false,
                   todo := (add_todo_entry st.todo (extractTarget st) none).1 },
         (wait_for_file_ready st env r d).2 ++
           ([Event.mkdirE (extractTarget st),
             Event.extractAll (extractTarget st) st.archive,
             Event.logExtracted (extractTarget st),
             Event.unlinkE, Event.logDeleted]
            ++ (add_todo_entry st.todo (extractTarget st) none).2.1)) ∧
    (∀ e ∈ (wait_for_file_ready st env r d).2, isFx e = false) ∧
    (∀ content, st.todo = some content →
      todoPattern (extractTarget st) content = false →
      (add_todo_entry st.todo (extractTarget st) none).2.1
        = [Event.todoAppend (todoEntryText (extractTarget st)),
           Event.logTodoAdded (extractTarget st)]) := by
  have hw := wait_ready st env r d hsrc hlock
  refine ⟨?_, fun e he => by rw [wait_trace_sleeps st env r d e he]; rfl, ?_⟩
  · rcases hta : add_todo_entry st.todo (extractTarget st) none with ⟨t1, ev1, e1⟩
    have he1 : e1 = none := by
      have hnr := add_todo_entry_no_raise st.todo (extractTarget st)
      rw [hta] at hnr
      exact hnr
    subst he1
    simp only [process_zip_file, hw, Bool.not_true, Bool.false_eq_true, if_false,
      hmk, hex, hun, htd, extractTarget] at hta ⊢
    rw [hta]
    simp [List.append_assoc]
  · intro content hc hp
    rw [hc]
    simp [add_todo_entry, hp]

theorem process_zip_file_success_witness :
    process_zip_file stW envW 1 2
      = ({ stW with destEntries := extractTarget stW :: stW.destEntries,
                    extracted := stW.extracted
                      ++ stW.archive.map (fun z => (extractTarget stW, z)),
                    srcPresent := false,
                    todo := (add_todo_entry stW.todo (extractTarget stW) none).1 },
         (wait_for_file_ready stW envW 1 2).2 ++
           ([Event.mkdirE (extractTarget stW),
             Event.extractAll (extractTarget stW) stW.archive,
             Event.logExtracted (extractTarget stW),
             Event.unlinkE, Event.logDeleted]
            ++ (add_todo_entry stW.todo (extractTarget stW) none).2.1)) :=
  (process_zip_file_success stW envW 1 2 rfl ⟨0, by omega, rfl⟩ rfl rfl rfl rfl).1

/-- C3: when extraction raises, the error is caught and logged with its
message, the routine returns, and the source file is left in place:
the state keeps `srcPresent`, the task document and the extracted files
unchanged; the only file-system effect is the prior directory creation. -/
theorem process_zip_file_extract_error (st : FsState) (env : Env) (r : Nat) (d : ℚ)
    (hsrc : st.srcPresent = true) (hlock : ∃ i, i < r ∧ env.lockFree i = true)
    (hmk : env.mkdirErr = none) (e : Str) (hex : env.extractErr = some e) :
    process_zip_file st env r d
      = ({ st with destEntries := extractTarget st :: st.destEntries },
         (wait_for_file_ready st env r d).2
           ++ [Event.mkdirE (extractTarget st), Event.logError e]) ∧
    (process_zip_file st env r d).1.srcPresent = true ∧
    (process_zip_file st env r d).1.todo = st.todo ∧
    (process_zip_file st env r d).1.extracted = st.extracted ∧
    (process_zip_file st env r d).2.filter isFx = [Event.mkdirE (extractTarget st)] ∧
    (∃ pre, (process_zip_file st env r d).2 = pre ++ [Event.logError e]) := by
  have hw := wait_ready st env r d hsrc hlock
  have h1 : process_zip_file st env r d
      = ({ st with destEntries := extractTarget st :: st.destEntries },
         (wait_for_file_ready st env r d).2
           ++ [Event.mkdirE (extractTarget st), Event.logError e]) := by
    simp only [process_zip_file, hw, Bool.not_true, Bool.false_eq_true, if_false,
      hmk, hex, extractTarget]
    simp [List.append_assoc]
  refine ⟨h1, by rw [h1]; exact hsrc, by rw [h1], by rw [h1], ?_, ?_⟩
  · rw [h1]
    simp only [List.filter_append, wait_trace_filter st env r d isFx (fun _ => rfl)]
    rfl
  · exact ⟨(wait_for_file_ready st env r d).2 ++ [Event.mkdirE (extractTarget st)],
      by rw [h1]; simp [List.append_assoc]⟩

theorem process_zip_file_extract_error_witness :
    process_zip_file stW
        { lockFree := fun _ => true, mkdirErr := none,
          extractErr := some "Bad zip file".data, unlinkErr := none,
          todoWriteErr := none } 1 2
      = ({ stW with destEntries := extractTarget stW :: stW.destEntries },
         (wait_for_file_ready stW
            { lockFree := fun _ => true, mkdirErr := none,
              extractErr := some "Bad zip file".data, unlinkErr := none,
              todoWriteErr := none } 1 2).2
           ++ [Event.mkdirE (extractTarget stW), Event.logError "Bad zip file".data]) :=
  (process_zip_file_extract_error stW
    { lockFree := fun _ => true, mkdirErr := none,
      extractErr := some "Bad zip file".data, unlinkErr := none,
      todoWriteErr := none } 1 2 rfl ⟨0, by omega, rfl⟩ rfl "Bad zip file".data rfl).1

/-- C4: `process_zip_file` is a total function: on every state and every
outcome of the operating-system calls it returns, and its trace ends in
a terminal log line — a timeout, a caught-and-logged error, or one of
the success logs.  No failure escapes the routine. -/
theorem process_zip_file_no_raise (st : FsState) (env : Env) (r : Nat) (d : ℚ) :
    ∃ pre ev, (process_zip_file st env r d).2 = pre ++ [ev] ∧ terminalEvent ev = true := by
  cases hw : (wait_for_file_ready st env r d).1 with
  | false =>
    refine ⟨(wait_for_file_ready st env r d).2, Event.logTimeout (pyInt (r * d)), ?_, rfl⟩
    simp [process_zip_file, hw]
  | true =>
    cases hmk : env.mkdirErr with
    | some e =>
      refine ⟨(wait_for_file_ready st env r d).2, Event.logError e, ?_, rfl⟩
      simp [process_zip_file, hw, hmk]
    | none =>
      cases hex : env.extractErr with
      | some e =>
        refine ⟨(wait_for_file_ready st env r d).2
            ++ [Event.mkdirE (extractTarget st)], Event.logError e, ?_, rfl⟩
        simp only [process_zip_file, hw, Bool.not_true, Bool.false_eq_true, if_false,
          hmk, hex, extractTarget]
      | none =>
        cases hun : env.unlinkErr with
        | some e =>
          refine ⟨(wait_for_file_ready st env r d).2
              ++ [Event.mkdirE (extractTarget st),
                  Event.extractAll (extractTarget st) st.archive,
                  Event.logExtracted (extractTarget st)], Event.logError e, ?_, rfl⟩
          simp only [process_zip_file, hw, Bool.not_true, Bool.false_eq_true, if_false,
            hmk, hex, hun, extractTarget]
          simp [List.append_assoc]
        | none =>
          rcases hta : add_todo_entry st.todo
              (resolve_extract_path st.destEntries (pyStem st.srcName)) env.todoWriteErr
            with ⟨t1, ev1, e1⟩
          have hev := add_todo_entry_events st.todo
            (resolve_extract_path st.destEntries (pyStem st.srcName)) env.todoWriteErr
          rw [hta] at hev
          cases e1 with
          | some e =>
            refine ⟨(wait_for_file_ready st env r d).2
                ++ [Event.mkdirE (extractTarget st),
                    Event.extractAll (extractTarget st) st.archive,
                    Event.logExtracted (extractTarget st),
                    Event.unlinkE, Event.logDeleted], Event.logError e, ?_, rfl⟩
            simp only [process_zip_file, hw, Bool.not_true, Bool.false_eq_true, if_false,
              hmk, hex, hun, extractTarget] at hta ⊢
            rw [hta]
            simp [List.append_assoc]
          | none =>
            rcases hev with rfl | rfl
            · refine ⟨(wait_for_file_ready st env r d).2
                  ++ [Event.mkdirE (extractTarget st),
                      Event.extractAll (extractTarget st) st.archive,
                      Event.logExtracted (extractTarget st),
                      Event.unlinkE], Event.logDeleted, ?_, rfl⟩
              simp only [process_zip_file, hw, Bool.not_true, Bool.false_eq_true, if_false,
                hmk, hex, hun, extractTarget] at hta ⊢
              rw [hta]
              simp [List.append_assoc]
            · refine ⟨(wait_for_file_ready st env r d).2
                  ++ [Event.mkdirE (extractTarget st),
                      Event.extractAll (extractTarget st) st.archive,
                      Event.logExtracted (extractTarget st),
                      Event.unlinkE, Event.logDeleted,
                      Event.todoAppend (todoEntryText (extractTarget st))],
                Event.logTodoAdded (extractTarget st), ?_, rfl⟩
              simp only [process_zip_file, hw, Bool.not_true, Bool.false_eq_true, if_false,
                hmk, hex, hun, extractTarget] at hta ⊢
              rw [hta]
              simp [List.append_assoc]

theorem filter_replicate_sleep (p : Event → Bool) (hp : ∀ q, p (Event.sleep q) = false)
    (k : Nat) (d : ℚ) : (List.replicate k (Event.sleep d)).filter p = [] :=
  List.filter_eq_nil_iff.mpr fun e he => by
    rw [List.eq_of_mem_replicate he, hp]
    exact fun hc => by cases hc

/-- C5 (counterexample): with `retries = 3` and `delay = 3/2`, the
timeout log reports `int(retries * delay) = 4` seconds, which differs
from `retries × delay = 9/2`: the reported elapsed time is the
truncation of the product, not the product itself. -/
theorem process_lock_timeout_cex :
    process_zip_file stL envL 3 (3 / 2)
      = (stL, List.replicate 3 (Event.sleep (3 / 2))
          ++ [Event.logTimeout (pyInt ((3 : ℕ) * ((3 : ℚ) / 2)))]) ∧
    pyInt ((3 : ℕ) * ((3 : ℚ) / 2)) = 4 ∧
    ((4 : ℤ) : ℚ) ≠ ((3 : ℕ) : ℚ) * ((3 : ℚ) / 2) := by
  refine ⟨process_timeout_path stL envL 3 (3 / 2) (by decide), ?_, by push_cast; norm_num⟩
  have h92 : ((3 : ℕ) : ℚ) * ((3 : ℚ) / 2) = 9 / 2 := by push_cast; ring
  rw [pyInt, h92, if_neg (by norm_num)]
  norm_num

/-- C5 (amended): for a file that never becomes exclusively openable
within the budget, `process_zip_file` performs no extraction, deletion,
or directory creation, leaves the state unchanged, and logs exactly one
timeout whose reported elapsed time is `retries × delay` truncated to an
integer (`int()`), hence equal to `retries × delay` whenever that
product is an integer. -/
theorem process_lock_timeout (st : FsState) (env : Env) (r : Nat) (d : ℚ)
    (h : ∀ i, i < r → (st.srcPresent && env.lockFree i) = false) :
    process_zip_file st env r d
      = (st, List.replicate r (Event.sleep d) ++ [Event.logTimeout (pyInt (r * d))]) ∧
    (process_zip_file st env r d).1 = st ∧
    (process_zip_file st env r d).2.filter isFx = [] ∧
    (process_zip_file st env r d).2.countP isTimeoutEv = 1 := by
  have h1 := process_timeout_path st env r d h
  refine ⟨h1, by rw [h1], ?_, ?_⟩
  · rw [h1]
    simp only [List.filter_append, filter_replicate_sleep isFx (fun _ => rfl)]
    rfl
  · rw [h1, List.countP_eq_length_filter]
    simp only [List.filter_append, filter_replicate_sleep isTimeoutEv (fun _ => rfl)]
    rfl

theorem process_lock_timeout_witness :
    process_zip_file stL envL 3 2
      = (stL, List.replicate 3 (Event.sleep 2)
          ++ [Event.logTimeout (pyInt ((3 : ℕ) * (2 : ℚ)))]) :=
  (process_lock_timeout stL envL 3 2 (by decide)).1

/-- C7 (counterexample): invoking the processor on an already-deleted
source path is not free of effects: the readiness probe burns its whole
retry budget and a timeout line is logged — the trace is not empty. -/
theorem process_absent_cex :
    process_zip_file stG envW 2 1
      = (stG, List.replicate 2 (Event.sleep 1)
          ++ [Event.logTimeout (pyInt ((2 : ℕ) * (1 : ℚ)))]) ∧
    (process_zip_file stG envW 2 1).2 ≠ [] := by
  have h1 := process_timeout_path stG envW 2 1 (by decide)
  exact ⟨h1, by rw [h1]; simp⟩

/-- C7 (amended): a second invocation on an already-deleted source path
changes nothing on the file system — no extraction, no deletion, no
directory creation, no task append, state unchanged — but it does sleep
through the retry budget and log one timeout line. -/
theorem process_absent_noop (st : FsState) (env : Env) (r : Nat) (d : ℚ)
    (h : st.srcPresent = false) :
    process_zip_file st env r d
      = (st, List.replicate r (Event.sleep d) ++ [Event.logTimeout (pyInt (r * d))]) ∧
    (process_zip_file st env r d).1 = st ∧
    (process_zip_file st env r d).2.filter isFx = [] := by
  have h1 := process_timeout_path st env r d fun i _ => by rw [h]; rfl
  refine ⟨h1, by rw [h1], ?_⟩
  rw [h1]
  simp only [List.filter_append, filter_replicate_sleep isFx (fun _ => rfl)]
  rfl

theorem process_absent_noop_witness :
    process_zip_file stG envW 2 1
      = (stG, List.replicate 2 (Event.sleep 1)
          ++ [Event.logTimeout (pyInt ((2 : ℕ) * (1 : ℚ)))]) :=
  (process_absent_noop stG envW 2 1 rfl).1

/-! ### Candidate selection -/

/-- C8 (counterexample): a directory named `d.zip` in the watch folder is
listed by `glob("*.zip")` and hence emitted by the startup scan and the
poll sweep, although it is a directory (the live-event path would ignore
it); and a file named `.zip` is emitted by the scan although its pathlib
suffix is empty, not `.zip`. -/
theorem candidate_filter_cex :
    scanCandidates [⟨"d.zip".data, true⟩] = ["d.zip".data] ∧
    (⟨"d.zip".data, true⟩ : DirEntry).isDir = true ∧
    eventEmits ⟨"d.zip".data, true⟩ = false ∧
    scanCandidates [⟨".zip".data, false⟩] = [".zip".data] ∧
    lowerStr (pySuffix ".zip".data) ≠ ".zip".data := by decide

/-- C8 (amended): the live-event path emits an entry exactly when it is
not a directory and its pathlib suffix, lowercased, is `.zip`; the
startup scan and the poll sweep emit exactly the entries, directories
included, whose name matches `*.zip` case-insensitively — that is,
whose lowercased name ends with `.zip`. -/
theorem candidate_filter (es : List DirEntry) (e : DirEntry) :
    (eventEmits e = (!e.isDir && decide (lowerStr (pySuffix e.name) = ".zip".data))) ∧
    (e ∈ es → globZip e.name = true → e.name ∈ scanCandidates es) ∧
    (∀ n, n ∈ scanCandidates es → ∃ d', d' ∈ es ∧ d'.name = n ∧ globZip n = true) ∧
    (globZip e.name = true ↔ ∃ s, lowerStr e.name = s ++ ".zip".data) := by
  refine ⟨rfl, ?_, ?_, ?_⟩
  · intro he hg
    simp only [scanCandidates, List.mem_map, List.mem_filter]
    exact ⟨e, ⟨he, hg⟩, rfl⟩
  · intro n hn
    simp only [scanCandidates, List.mem_map, List.mem_filter] at hn
    obtain ⟨d', ⟨hd1, hd2⟩, rfl⟩ := hn
    exact ⟨d', hd1, rfl, hd2⟩
  · rw [globZip, List.isSuffixOf_iff_suffix]
    constructor
    · rintro ⟨s, hs⟩
      exact ⟨s, hs.symm⟩
    · rintro ⟨s, hs⟩
      exact ⟨s, hs.symm⟩

theorem candidate_filter_witness :
    eventEmits ⟨"A.Zip".data, false⟩ = true ∧
    "b.zip".data ∈ scanCandidates [⟨"b.zip".data, false⟩] :=
  ⟨((candidate_filter [] ⟨"A.Zip".data, false⟩).1).trans (by decide),
   (candidate_filter [⟨"b.zip".data, false⟩] ⟨"b.zip".data, false⟩).2.1 (by decide) (by decide)⟩
